import Mathlib

/-!
Shallow embedding of `src/.scripts/wav_to_cpp.py` (WAV → C++ byte-array
converter) and proofs of the specification claims about it.

Python integer semantics are mapped as follows:
* `a // b` (floor division) and `a >> k` (arithmetic shift) use `Int.fdiv`;
* `a & 0xFF` on a two's-complement integer equals `Int.emod a 256`
  (Python's `&` with a non-negative mask is the mathematical remainder);
* text is modelled as `List Char` (Python `str`).
-/

set_option autoImplicit false

namespace WavToCpp

/-! ### Channel reducer (wav_to_cpp.py lines 36–37) -/

/-- `(samples[i] + samples[i+1]) // 2`: Python `//` is floor division. -/
def downmixPair (l r : Int) : Int := Int.fdiv (l + r) 2

/-- The list comprehension
`[(samples[i] + samples[i+1]) // 2 for i in range(0, len(samples), 2)]`.
On an odd-length list the final `samples[i+1]` raises `IndexError`
(modelled as `none`). -/
def stereoDownmix : List Int → Option (List Int)
  | [] => some []
  | [_] => none
  | l :: r :: rest => (stereoDownmix rest).map (fun t => downmixPair l r :: t)

/-- `if n_channels == 2: samples = [...]` — any other channel count leaves
`samples` untouched. -/
def reduceChannels (nChannels : Nat) (samples : List Int) : Option (List Int) :=
  if nChannels = 2 then stereoDownmix samples else some samples

/-- Total counterpart of `stereoDownmix`, used to state its result. -/
def downmixPairs : List Int → List Int
  | l :: r :: rest => downmixPair l r :: downmixPairs rest
  | _ => []

/-! ### Byte-level serialization (lines 43–44) -/

/-- `sample & 0xFF` (low byte of the two's-complement representation;
`%` on `Int` is `Int.emod`, the mathematical remainder). -/
def lowByte (s : Int) : Int := s % 256

/-- `(sample >> 8) & 0xFF` (arithmetic right shift, then mask). -/
def highByte (s : Int) : Int := Int.fdiv s 256 % 256

/-- The byte stream emitted for a sample list: low byte then high byte of
each sample, in order. -/
def encodeBytes (samples : List Int) : List Int :=
  samples.flatMap (fun s => [lowByte s, highByte s])

/-- Reinterpretation of a byte stream as little-endian signed 16-bit
integers (the inverse reading used by the round-trip claims; fails on an
odd byte count). -/
def decodeInt16 (b1 b2 : Int) : Int :=
  if b1 + 256 * b2 < 32768 then b1 + 256 * b2 else b1 + 256 * b2 - 65536

/-- Decode a little-endian byte stream back into signed 16-bit samples. -/
def decodeBytesLE : List Int → Option (List Int)
  | [] => some []
  | [_] => none
  | b1 :: b2 :: rest => (decodeBytesLE rest).map (fun t => decodeInt16 b1 b2 :: t)

/-! ### Hex rendering and line wrapping (lines 40–52) -/

/-- One uppercase hexadecimal digit (`%X` formatting). -/
def hexDigit (n : Nat) : Char :=
  if n < 10 then Char.ofNat (48 + n) else Char.ofNat (55 + n)

/-- `f"0x{b:02X}"` for a byte value `0 ≤ b < 256`. -/
def byteLit (b : Int) : List Char :=
  ['0', 'x', hexDigit (b.toNat / 16), hexDigit (b.toNat % 16)]

/-- `f"0x{b1:02X}, 0x{b2:02X}, "` for one sample. -/
def sampleHex (s : Int) : List Char :=
  byteLit (lowByte s) ++ [',', ' '] ++ byteLit (highByte s) ++ [',', ' ']

/-- `"\n    "` appended after every 8th sample. -/
def newlineIndent : List Char := ['\n', ' ', ' ', ' ', ' ']

/-- `"".join(hex_values)` built by the `for i, sample in enumerate(samples)`
loop, starting at index `i`. -/
def renderHex : Nat → List Int → List Char
  | _, [] => []
  | i, s :: rest =>
      sampleHex s ++ (if (i + 1) % 8 = 0 then newlineIndent else [])
        ++ renderHex (i + 1) rest

/-- Membership in the strip set of `.strip(",\x7bn ")` (comma, newline,
space). -/
def isStripChar (c : Char) : Bool := c == ',' || c == '\n' || c == ' '

/-- Remove trailing characters of the strip set (the right half of
`str.strip`). -/
def rstripChars (l : List Char) : List Char :=
  (l.reverse.dropWhile isStripChar).reverse

/-- Python `str.strip(",\x7bn ")`: remove leading and trailing characters
belonging to the strip set. -/
def pyStrip (l : List Char) : List Char :=
  rstripChars (l.dropWhile isStripChar)

/-- `array_str = "    " + "".join(hex_values).strip(",\x7bn ")` (line 52). -/
def array_str (samples : List Int) : List Char :=
  [' ', ' ', ' ', ' '] ++ pyStrip (renderHex 0 samples)

/-! ### Metadata comment (line 67) -/

/-- `'mono' if n_channels == 1 else 'stereo'`. -/
def channelLabel (n : Nat) : List Char :=
  if n = 1 then "mono".data else "stereo".data

/-- The `// - Channels: {n_channels} ({...})` comment line. -/
def channelsCommentLine (n : Nat) : List Char :=
  "// - Channels: ".data ++ (Nat.repr n).data ++ " (".data ++ channelLabel n ++ [')']

/-! ### The `wav_to_c_array` pipeline (lines 15–71) -/

/-- The decoded WAV input at the point after `struct.unpack`: container
metadata plus the interleaved signed 16-bit samples. -/
structure WavInput where
  nChannels : Nat
  sampleWidth : Nat
  frameRate : Nat
  nFrames : Nat
  samples : List Int
deriving DecidableEq

/-- The claim-relevant pieces of the generated C++ text: the array body,
the value of `sizeof({name}_data)` (the element count of a `uint8_t[]`
initialized with that many byte literals), the channel label used in the
metadata comment, and `len(samples)` after reduction. -/
structure Artifact where
  arrayText : List Char
  sizeofData : Nat
  channelsLabel : List Char
  totalSamples : Nat
deriving DecidableEq

/-- `f"Error: Only 16-bit PCM WAV files are supported (got -bit)"`
with `sample_width*8` interpolated (line 28). -/
def formatErrorMsg (sampleWidth : Nat) : List Char :=
  "Error: Only 16-bit PCM WAV files are supported (got ".data
    ++ (Nat.repr (sampleWidth * 8)).data ++ "-bit)".data

/-- `wav_to_c_array`: the width gate (lines 27–29) runs before any sample
processing; an `IndexError` from the stereo comprehension falls into the
generic `except` handler (lines 73–75). `Except.error` models the
`sys.exit(1)` paths. -/
def wav_to_c_array (w : WavInput) : Except (List Char) Artifact :=
  if w.sampleWidth ≠ 2 then .error (formatErrorMsg w.sampleWidth)
  else
    match reduceChannels w.nChannels w.samples with
    | none => .error ("Error processing WAV file: list index out of range".data)
    | some mono =>
        .ok { arrayText := array_str mono
              sizeofData := (encodeBytes mono).length
              channelsLabel := channelLabel w.nChannels
              totalSamples := mono.length }

/-- Process outcome: the artifact written (if any) and the exit status.
`sys.exit(1)` yields `(none, 1)`; success writes the artifact and exits 0. -/
def runOutcome (w : WavInput) : Option Artifact × Nat :=
  match wav_to_c_array w with
  | .error _ => (none, 1)
  | .ok a => (some a, 0)

/-! ### Identifier sanitizer (`sanitize_var_name`, lines 77–83) -/

/-- Python `str.rfind`: index of the last occurrence, `-1` if absent. -/
def pyRfind (l : List Char) (c : Char) : Int :=
  match l.reverse.findIdx? (fun x => x == c) with
  | none => -1
  | some i => ((l.length - 1 - i : Nat) : Int)

/-- `os.path.basename`: the part after the last `/`. -/
def basename (p : List Char) : List Char :=
  (p.reverse.takeWhile (fun c => !(c == '/'))).reverse

/-- `os.path.splitext(...)[0]` (posixpath `_splitext`): drop the suffix from
the last dot, unless every character between the last separator and that
dot is itself a dot (leading dots are not an extension). -/
def splitextRoot (p : List Char) : List Char :=
  let sepIndex : Int := pyRfind p '/'
  let dotIndex : Int := pyRfind p '.'
  if sepIndex < dotIndex then
    if ((p.drop (sepIndex + 1).toNat).take (dotIndex - sepIndex - 1).toNat).any
        (fun c => !(c == '.')) then
      p.take dotIndex.toNat
    else p
  else p

/-- One character of the class `[a-zA-Z0-9_]` of `re.sub` (line 82). -/
def isWordChar (c : Char) : Bool :=
  ('a' ≤ c && c ≤ 'z') || ('A' ≤ c && c ≤ 'Z') || ('0' ≤ c && c ≤ '9') || c = '_'

/-- `sanitize_var_name`: basename, drop extension, replace every character
outside `[a-zA-Z0-9_]` with `_`, prefix `wav_`. -/
def sanitize_var_name (filename : List Char) : List Char :=
  "wav_".data
    ++ (splitextRoot (basename filename)).map (fun c => if isWordChar c then c else '_')

/-! ### Claim-side (spec-side) readings used to state the claims -/

/-- Truncating (toward-zero) division by two, the reading claimed by C3
for the downmix average (`Int.tdiv` is C-style truncating division). -/
def truncAvg (l r : Int) : Int := Int.tdiv (l + r) 2

/-- Strip all whitespace and newlines from a rendered block (the
reinterpretation step of the line-wrapping claim C4). -/
def removeWS (l : List Char) : List Char :=
  l.filter (fun c => !(c == ' ' || c == '\n'))

/-- Join a list of rendered literals with single commas. -/
def joinComma : List (List Char) → List Char
  | [] => []
  | [x] => x
  | x :: y :: rest => x ++ [','] ++ joinComma (y :: rest)

/-- The comma-separated byte-literal reading of an encoded sample list:
every byte of the stream rendered as `0xHH`, joined by commas. -/
def byteLitsJoined (samples : List Int) : List Char :=
  joinComma ((encodeBytes samples).map byteLit)

/-! ## Theorems -/

/-- C3 counterexample: at the stereo pair `(0, -1)` the code's downmix
(Python floor division) yields `-1`, while truncating toward-zero division
of `L + R` by `2` yields `0`, so the claim's truncation reading is false. -/
theorem downmix_trunc_counterexample :
    downmixPair 0 (-1) = -1 ∧ truncAvg 0 (-1) = 0 ∧
      downmixPair 0 (-1) ≠ truncAvg 0 (-1) := by decide

/-- C3 (amended): the downmixed value is the floor (toward negative
infinity) of `(L + R) / 2`; it coincides with truncating toward-zero
division exactly when `L + R` is nonnegative or even, and is one less than
the truncating quotient when `L + R` is negative and odd. -/
theorem downmix_floor_vs_trunc (l r : Int) :
    downmixPair l r =
      if 0 ≤ l + r ∨ (l + r) % 2 = 0 then truncAvg l r else truncAvg l r - 1 := by
  unfold downmixPair truncAvg
  have hf : Int.fdiv (l + r) 2 = (l + r) / 2 := Int.fdiv_eq_ediv _ (by decide)
  rcases le_or_lt 0 (l + r) with h | h
  · rw [hf, Int.tdiv_eq_ediv h (by decide), if_pos (Or.inl h)]
  · have h3 : Int.tdiv (l + r) 2 = -(Int.tdiv (-(l + r)) 2) := by
      rw [Int.neg_tdiv, Int.neg_neg]
    have h4 : Int.tdiv (-(l + r)) 2 = (-(l + r)) / 2 :=
      Int.tdiv_eq_ediv (by omega) (by decide)
    rw [hf, h3, h4]
    by_cases hpar : (l + r) % 2 = 0
    · rw [if_pos (Or.inr hpar)]; omega
    · rw [if_neg (by rintro (h2 | h2) <;> omega)]; omega

/-- C8: the mono input `[1, -1, 1000, -1000]` produces exactly the bytes
`0x01 0x00 0xFF 0xFF 0xE8 0x03 0x18 0xFC` in order, a size constant of 8,
and the expected rendered array text. -/
theorem example_four_samples :
    wav_to_c_array ⟨1, 2, 8000, 4, [1, -1, 1000, -1000]⟩ =
      .ok ⟨"    0x01, 0x00, 0xFF, 0xFF, 0xE8, 0x03, 0x18, 0xFC".data, 8,
           "mono".data, 4⟩ ∧
    encodeBytes [1, -1, 1000, -1000] = [1, 0, 255, 255, 232, 3, 24, 252] ∧
    byteLitsJoined [1, -1, 1000, -1000] =
      "0x01,0x00,0xFF,0xFF,0xE8,0x03,0x18,0xFC".data :=
  ⟨rfl, by decide, by decide⟩

/-- C6: for any input whose sample width is not 2 bytes, `wav_to_c_array`
fails with the message reporting `width * 8` bits, the run exits with
status 1, and no artifact is produced. -/
theorem unsupported_width_fails (w : WavInput) (h : w.sampleWidth ≠ 2) :
    wav_to_c_array w = .error (formatErrorMsg w.sampleWidth) ∧
      runOutcome w = (none, 1) := by
  have h1 : wav_to_c_array w = .error (formatErrorMsg w.sampleWidth) := by
    unfold wav_to_c_array
    rw [if_pos h]
  exact ⟨h1, by unfold runOutcome; rw [h1]⟩

/-- C6 witness: a 24-bit (3-byte) input fails with the `24-bit` message,
exit status 1, and no output. -/
theorem unsupported_width_fails_witness :
    (⟨1, 3, 8000, 0, []⟩ : WavInput).sampleWidth ≠ 2 ∧
    (wav_to_c_array ⟨1, 3, 8000, 0, []⟩ = .error (formatErrorMsg 3) ∧
      runOutcome ⟨1, 3, 8000, 0, []⟩ = (none, 1)) ∧
    formatErrorMsg 3 =
      "Error: Only 16-bit PCM WAV files are supported (got 24-bit)".data :=
  ⟨by decide, unsupported_width_fails ⟨1, 3, 8000, 0, []⟩ (by decide), by decide⟩

/-- C9: for every channel count other than 2 the reducer returns the
interleaved samples unchanged (no averaging, no error), so the serialized
sample count stays `frame_count * N`. -/
theorem non_stereo_identity (n fc : Nat) (samples : List Int)
    (hn : n ≠ 2) (hlen : samples.length = fc * n) :
    reduceChannels n samples = some samples ∧
      ∀ out, reduceChannels n samples = some out → out.length = fc * n := by
  have h1 : reduceChannels n samples = some samples := by
    unfold reduceChannels; rw [if_neg hn]
  refine ⟨h1, fun out hout => ?_⟩
  rw [h1] at hout
  cases hout
  exact hlen

/-- C9 witness: a 3-channel, 2-frame input passes through unchanged with
all 6 samples kept. -/
theorem non_stereo_identity_witness :
    reduceChannels 3 [1, 2, 3, 4, 5, 6] = some [1, 2, 3, 4, 5, 6] ∧
      ∀ out, reduceChannels 3 [1, 2, 3, 4, 5, 6] = some out →
        out.length = 2 * 3 :=
  non_stereo_identity 3 2 [1, 2, 3, 4, 5, 6] (by decide) (by decide)

/-- C10: every channel count other than 1 is labelled `stereo` in the
metadata comment (only 1 is labelled `mono`). -/
theorem non_mono_labelled_stereo (w : WavInput) (a : Artifact)
    (hn : w.nChannels ≠ 1) (h : wav_to_c_array w = .ok a) :
    a.channelsLabel = "stereo".data ∧
      channelsCommentLine w.nChannels =
        ("// - Channels: ".data ++ (Nat.repr w.nChannels).data) ++
          " (stereo)".data := by
  constructor
  · unfold wav_to_c_array at h
    split at h
    · cases h
    · cases hm : reduceChannels w.nChannels w.samples with
      | none => rw [hm] at h; cases h
      | some mono =>
          rw [hm] at h
          cases h
          simp [channelLabel, hn]
  · unfold channelsCommentLine
    rw [show channelLabel w.nChannels = "stereo".data from by simp [channelLabel, hn]]
    have hseg : (" (".data : List Char) ++ ("stereo".data ++ [')']) = " (stereo)".data := by
      decide
    simp only [List.append_assoc]
    rw [hseg]

/-- C10 witness: a 3-channel input is described as `stereo`. -/
theorem non_mono_labelled_stereo_witness :
    (⟨array_str [1, 2, 3], 6, "stereo".data, 3⟩ : Artifact).channelsLabel =
        "stereo".data ∧
      channelsCommentLine 3 =
        ("// - Channels: ".data ++ (Nat.repr 3).data) ++ " (stereo)".data :=
  non_mono_labelled_stereo ⟨3, 2, 8000, 1, [1, 2, 3]⟩
    ⟨array_str [1, 2, 3], 6, "stereo".data, 3⟩ (by decide) rfl

/-! ### Helper lemmas for the sanitizer claim -/

theorem takeWhile_all_append {p : Char → Bool} (xs ys : List Char)
    (h : ∀ c ∈ xs, p c = true) :
    List.takeWhile p (xs ++ ys) = xs ++ List.takeWhile p ys := by
  induction xs with
  | nil => rfl
  | cons x xs ih =>
      have hx : p x = true := h x (by simp)
      simp only [List.cons_append, List.takeWhile_cons, hx, if_true]
      rw [ih (fun c hc => h c (by simp [hc]))]

theorem takeWhile_all {p : Char → Bool} (xs : List Char)
    (h : ∀ c ∈ xs, p c = true) : List.takeWhile p xs = xs := by
  induction xs with
  | nil => rfl
  | cons x xs ih =>
      have hx : p x = true := h x (by simp)
      simp only [List.takeWhile_cons, hx, if_true]
      rw [ih (fun c hc => h c (by simp [hc]))]

theorem basename_id (p : List Char) (hp : '/' ∉ p) : basename p = p := by
  unfold basename
  rw [takeWhile_all p.reverse (fun c hc => by
    simp only [Bool.not_eq_true', beq_eq_false_iff_ne, ne_eq]
    rw [List.mem_reverse] at hc
    exact fun h => hp (h ▸ hc))]
  exact p.reverse_reverse

theorem basename_append (d p : List Char) (hp : '/' ∉ p) :
    basename (d ++ '/' :: p) = p := by
  unfold basename
  rw [List.reverse_append, List.reverse_cons, List.append_assoc]
  rw [takeWhile_all_append p.reverse _ (fun c hc => by
    simp only [Bool.not_eq_true', beq_eq_false_iff_ne, ne_eq]
    rw [List.mem_reverse] at hc
    exact fun h => hp (h ▸ hc))]
  simp [List.takeWhile_cons]

/-- C7: the sanitizer maps the two spec examples as claimed, ignores any
directory part left of the last `/`, always yields `wav_`-prefixed output,
and emits only characters from `[A-Za-z0-9_]`. -/
theorem sanitize_spec_props :
    sanitize_var_name "My Song (2024).wav".data = "wav_My_Song__2024_".data ∧
    sanitize_var_name "/a/b/c.wav".data = "wav_c".data ∧
    (∀ d p : List Char, '/' ∉ p →
        sanitize_var_name (d ++ '/' :: p) = sanitize_var_name p) ∧
    (∀ p : List Char, (sanitize_var_name p).take 4 = "wav_".data ∧
        ∀ c ∈ sanitize_var_name p, isWordChar c = true) := by
  refine ⟨by decide, by decide, ?_, ?_⟩
  · intro d p hp
    unfold sanitize_var_name
    rw [basename_append d p hp, basename_id p hp]
  · intro p
    constructor
    · rfl
    · intro c hc
      unfold sanitize_var_name at hc
      rw [List.mem_append] at hc
      rcases hc with hc | hc
      · have hc' : c ∈ ['w', 'a', 'v', '_'] := hc
        simp only [List.mem_cons, List.not_mem_nil, or_false] at hc'
        rcases hc' with rfl | rfl | rfl | rfl <;> decide
      · rw [List.mem_map] at hc
        obtain ⟨c', _, rfl⟩ := hc
        by_cases hw : isWordChar c' = true
        · rw [if_pos hw]; exact hw
        · rw [if_neg hw]; decide

/-- C7 witness: the directory-stripping clause applied at a concrete
path split. -/
theorem sanitize_spec_props_witness :
    sanitize_var_name ("dir".data ++ '/' :: "c.wav".data) =
      sanitize_var_name "c.wav".data :=
  sanitize_spec_props.2.2.1 "dir".data "c.wav".data (by decide)

/-! ### Helper lemmas for the round-trip claims -/

theorem encode_decode_sample (s : Int) (h1 : -32768 ≤ s) (h2 : s ≤ 32767) :
    decodeInt16 (lowByte s) (highByte s) = s := by
  unfold decodeInt16 lowByte highByte
  have hf : Int.fdiv s 256 = s / 256 := Int.fdiv_eq_ediv _ (by decide)
  rw [hf]
  split <;> omega

theorem decode_encode_list :
    ∀ samples : List Int, (∀ s ∈ samples, -32768 ≤ s ∧ s ≤ 32767) →
      decodeBytesLE (encodeBytes samples) = some samples
  | [], _ => rfl
  | s :: rest, h => by
      have hs := h s (by simp)
      have ih := decode_encode_list rest (fun x hx => h x (by simp [hx]))
      show decodeBytesLE (lowByte s :: highByte s :: encodeBytes rest) = _
      rw [show decodeBytesLE (lowByte s :: highByte s :: encodeBytes rest)
            = (decodeBytesLE (encodeBytes rest)).map
                (fun t => decodeInt16 (lowByte s) (highByte s) :: t) from rfl]
      rw [ih]
      simp [encode_decode_sample s hs.1 hs.2]

/-- C1: a mono sample sequence passes the reducer unchanged, and decoding
the emitted little-endian byte stream recovers exactly the original
samples (two's complement, negatives included). -/
theorem mono_roundtrip (samples : List Int)
    (h : ∀ s ∈ samples, -32768 ≤ s ∧ s ≤ 32767) :
    reduceChannels 1 samples = some samples ∧
      decodeBytesLE (encodeBytes samples) = some samples :=
  ⟨by unfold reduceChannels; rw [if_neg (by decide)],
   decode_encode_list samples h⟩

/-- C1 witness: the round trip at `[1, -1, 1000, -1000]`. -/
theorem mono_roundtrip_witness :
    reduceChannels 1 [1, -1, 1000, -1000] = some [1, -1, 1000, -1000] ∧
      decodeBytesLE (encodeBytes [1, -1, 1000, -1000]) =
        some [1, -1, 1000, -1000] :=
  mono_roundtrip [1, -1, 1000, -1000] (by decide)

/-! ### Helper lemmas for the stereo claim -/

theorem stereoDownmix_of_even :
    ∀ samples : List Int, samples.length % 2 = 0 →
      stereoDownmix samples = some (downmixPairs samples)
  | [], _ => rfl
  | [_], h => by simp at h
  | l :: r :: rest, h => by
      have h' : rest.length % 2 = 0 := by
        simp only [List.length_cons] at h; omega
      have ih := stereoDownmix_of_even rest h'
      simp [stereoDownmix, downmixPairs, ih]

theorem downmixPairs_length :
    ∀ samples : List Int, (downmixPairs samples).length = samples.length / 2
  | [] => rfl
  | [_] => by simp [downmixPairs]
  | l :: r :: rest => by
      simp only [downmixPairs, List.length_cons, downmixPairs_length rest]
      omega

theorem downmixPairs_getD :
    ∀ (samples : List Int) (i : Nat), i < samples.length / 2 →
      (downmixPairs samples).getD i 0 =
        Int.fdiv (samples.getD (2 * i) 0 + samples.getD (2 * i + 1) 0) 2
  | [], i, h => by simp at h
  | [_], i, h => by
      simp only [List.length_cons, List.length_nil] at h
      omega
  | l :: r :: rest, 0, _ => by
      simp [downmixPairs, downmixPair]
  | l :: r :: rest, i + 1, h => by
      have h' : i < rest.length / 2 := by
        simp only [List.length_cons] at h; omega
      have ih := downmixPairs_getD rest i h'
      have e1 : 2 * (i + 1) = 2 * i + 1 + 1 := by ring
      rw [e1]
      simp only [downmixPairs, List.getD_cons_succ]
      exact ih

/-- C2: on an even-length stereo sequence the reducer emits exactly one
sample per frame (`len / 2` samples), the `i`-th being the floor of
`(L + R) / 2` for the `i`-th interleaved pair at stride 2. -/
theorem stereo_downmix_spec (samples : List Int)
    (heven : samples.length % 2 = 0)
    (_h16 : ∀ s ∈ samples, -32768 ≤ s ∧ s ≤ 32767) :
    ∃ out, reduceChannels 2 samples = some out ∧
      out.length = samples.length / 2 ∧
      ∀ i, i < samples.length / 2 →
        out.getD i 0 =
          Int.fdiv (samples.getD (2 * i) 0 + samples.getD (2 * i + 1) 0) 2 := by
  refine ⟨downmixPairs samples, ?_, downmixPairs_length samples,
    fun i hi => downmixPairs_getD samples i hi⟩
  unfold reduceChannels
  rw [if_pos rfl, stereoDownmix_of_even samples heven]

/-- C2 witness: the downmix at the concrete stereo stream
`[10, 20, -3, -4]`. -/
theorem stereo_downmix_spec_witness :
    ∃ out, reduceChannels 2 [10, 20, -3, -4] = some out ∧
      out.length = ([10, 20, -3, -4] : List Int).length / 2 ∧
      ∀ i, i < ([10, 20, -3, -4] : List Int).length / 2 →
        out.getD i 0 =
          Int.fdiv (([10, 20, -3, -4] : List Int).getD (2 * i) 0 +
            ([10, 20, -3, -4] : List Int).getD (2 * i + 1) 0) 2 :=
  stereo_downmix_spec [10, 20, -3, -4] (by decide) (by decide)

/-! ### Helper lemmas for the serializer claims -/

theorem hexDigit_not_ws (n : Nat) (h : n < 16) :
    (hexDigit n == ' ' || hexDigit n == '\n') = false := by
  interval_cases n <;> decide

theorem hexDigit_not_strip (n : Nat) (h : n < 16) :
    isStripChar (hexDigit n) = false := by
  interval_cases n <;> decide

theorem hexDigit_ne_x (n : Nat) (h : n < 16) : (hexDigit n == 'x') = false := by
  interval_cases n <;> decide

theorem lowByte_range (s : Int) : 0 ≤ lowByte s ∧ lowByte s < 256 := by
  unfold lowByte; omega

theorem highByte_range (s : Int) : 0 ≤ highByte s ∧ highByte s < 256 := by
  unfold highByte; omega

theorem removeWS_append (a b : List Char) :
    removeWS (a ++ b) = removeWS a ++ removeWS b :=
  List.filter_append a b

theorem removeWS_byteLit (b : Int) (h0 : 0 ≤ b) (h1 : b < 256) :
    removeWS (byteLit b) = byteLit b := by
  have d1 : b.toNat / 16 < 16 := by omega
  have d2 : b.toNat % 16 < 16 := by omega
  unfold removeWS byteLit
  rw [List.filter_eq_self]
  intro c hc
  simp only [List.mem_cons, List.not_mem_nil, or_false] at hc
  rcases hc with rfl | rfl | rfl | rfl
  · decide
  · decide
  · simp [hexDigit_not_ws _ d1]
  · simp [hexDigit_not_ws _ d2]

theorem removeWS_sampleHex (s : Int) :
    removeWS (sampleHex s) =
      byteLit (lowByte s) ++ [','] ++ byteLit (highByte s) ++ [','] := by
  unfold sampleHex
  rw [removeWS_append, removeWS_append, removeWS_append,
    removeWS_byteLit _ (lowByte_range s).1 (lowByte_range s).2,
    removeWS_byteLit _ (highByte_range s).1 (highByte_range s).2,
    show removeWS [',', ' '] = [','] from by decide]

theorem dropWhile_all_append {p : Char → Bool} (xs ys : List Char)
    (h : ∀ c ∈ xs, p c = true) :
    List.dropWhile p (xs ++ ys) = List.dropWhile p ys := by
  induction xs with
  | nil => rfl
  | cons x xs ih =>
      have hx : p x = true := h x (by simp)
      simp only [List.cons_append, List.dropWhile_cons, hx, if_true]
      exact ih (fun c hc => h c (by simp [hc]))

theorem dropWhile_ne_nil_of_mem {p : Char → Bool} :
    ∀ (l : List Char) (c : Char), c ∈ l → p c = false →
      List.dropWhile p l ≠ []
  | [], c, hc, _ => by simp at hc
  | x :: xs, c, hc, hpc => by
      rw [List.dropWhile_cons]
      by_cases hx : p x = true
      · rw [if_pos hx]
        rcases List.mem_cons.mp hc with rfl | hc'
        · rw [hpc] at hx; cases hx
        · exact dropWhile_ne_nil_of_mem xs c hc' hpc
      · rw [if_neg hx]
        simp

theorem rstrip_append_all (a b : List Char)
    (h : ∀ c ∈ b, isStripChar c = true) :
    rstripChars (a ++ b) = rstripChars a := by
  unfold rstripChars
  rw [List.reverse_append,
    dropWhile_all_append b.reverse a.reverse
      (fun c hc => h c (List.mem_reverse.mp hc))]

theorem rstrip_append_of_mem (y t : List Char) (c : Char)
    (hc : c ∈ t) (hns : isStripChar c = false) :
    rstripChars (y ++ t) = y ++ rstripChars t := by
  have hne : List.dropWhile isStripChar t.reverse ≠ [] :=
    dropWhile_ne_nil_of_mem t.reverse c (List.mem_reverse.mpr hc) hns
  unfold rstripChars
  rw [List.reverse_append, List.dropWhile_append]
  cases h' : List.dropWhile isStripChar t.reverse with
  | nil => exact absurd h' hne
  | cons a as => simp [List.reverse_append]

theorem rstrip_append_byteLit (y : List Char) (b : Int)
    (_h0 : 0 ≤ b) (_h1 : b < 256) :
    rstripChars (y ++ byteLit b) = y ++ byteLit b := by
  have d2 : b.toNat % 16 < 16 := by omega
  unfold rstripChars byteLit
  rw [List.reverse_append]
  rw [show (['0', 'x', hexDigit (b.toNat / 16), hexDigit (b.toNat % 16)] :
      List Char).reverse
        = [hexDigit (b.toNat % 16), hexDigit (b.toNat / 16), 'x', '0'] from by simp]
  rw [List.cons_append, List.dropWhile_cons,
    if_neg (by simp [hexDigit_not_strip _ d2])]
  simp

theorem encodeBytes_cons (s : Int) (rest : List Int) :
    encodeBytes (s :: rest) = lowByte s :: highByte s :: encodeBytes rest := rfl

theorem renderHex_cons_head (i : Nat) (s : Int) (rest : List Int) :
    ∃ t, renderHex i (s :: rest) = '0' :: t := ⟨_, rfl⟩

theorem removeWS_rstrip_renderHex :
    ∀ (rest : List Int) (i : Nat) (s : Int),
      removeWS (rstripChars (renderHex i (s :: rest))) =
        joinComma ((encodeBytes (s :: rest)).map byteLit)
  | [], i, s => by
      show removeWS (rstripChars ((sampleHex s ++
          (if (i + 1) % 8 = 0 then newlineIndent else [])) ++ renderHex (i + 1) [])) = _
      rw [show renderHex (i + 1) ([] : List Int) = [] from rfl, List.append_nil]
      have hstrip : rstripChars (sampleHex s ++
            (if (i + 1) % 8 = 0 then newlineIndent else []))
          = rstripChars (sampleHex s) := by
        by_cases hc : (i + 1) % 8 = 0
        · rw [if_pos hc]
          exact rstrip_append_all _ _ (by decide)
        · rw [if_neg hc, List.append_nil]
      rw [hstrip]
      have h2 : rstripChars (sampleHex s)
          = byteLit (lowByte s) ++ [',', ' '] ++ byteLit (highByte s) := by
        unfold sampleHex
        rw [rstrip_append_all _ [',', ' '] (by decide)]
        exact rstrip_append_byteLit _ _ (highByte_range s).1 (highByte_range s).2
      rw [h2, removeWS_append, removeWS_append,
        removeWS_byteLit _ (lowByte_range s).1 (lowByte_range s).2,
        removeWS_byteLit _ (highByte_range s).1 (highByte_range s).2,
        show removeWS [',', ' '] = [','] from by decide]
      rfl
  | r :: rest', i, s => by
      have ih := removeWS_rstrip_renderHex rest' (i + 1) r
      show removeWS (rstripChars ((sampleHex s ++
          (if (i + 1) % 8 = 0 then newlineIndent else [])) ++
            renderHex (i + 1) (r :: rest'))) = _
      obtain ⟨t, ht⟩ := renderHex_cons_head (i + 1) r rest'
      have hmem : '0' ∈ renderHex (i + 1) (r :: rest') := by rw [ht]; simp
      rw [rstrip_append_of_mem _ _ '0' hmem (by decide)]
      have hnl : removeWS (if (i + 1) % 8 = 0 then newlineIndent else []) = [] := by
        by_cases hc : (i + 1) % 8 = 0
        · rw [if_pos hc]; decide
        · rw [if_neg hc]; rfl
      rw [removeWS_append, removeWS_append, hnl, List.append_nil,
        removeWS_sampleHex, ih]
      rw [encodeBytes_cons s (r :: rest'), encodeBytes_cons r rest']
      simp only [List.map_cons, joinComma, List.append_assoc]

theorem strip_render_eq (samples : List Int) :
    removeWS (array_str samples) = byteLitsJoined samples := by
  cases samples with
  | nil => rfl
  | cons s rest =>
      unfold array_str pyStrip
      obtain ⟨t, ht⟩ := renderHex_cons_head 0 s rest
      rw [ht,
        show List.dropWhile isStripChar ('0' :: t) = '0' :: t from by
          rw [List.dropWhile_cons, if_neg (by decide)],
        ← ht, removeWS_append,
        show removeWS [' ', ' ', ' ', ' '] = [] from by decide,
        List.nil_append]
      exact removeWS_rstrip_renderHex rest 0 s

theorem encodeBytes_length :
    ∀ samples : List Int, (encodeBytes samples).length = 2 * samples.length
  | [] => rfl
  | s :: rest => by
      rw [encodeBytes_cons]
      simp only [List.length_cons, encodeBytes_length rest]
      omega

theorem encodeBytes_mem_range :
    ∀ (samples : List Int) (b : Int), b ∈ encodeBytes samples →
      0 ≤ b ∧ b < 256
  | [], b, hb => by simp [encodeBytes] at hb
  | s :: rest, b, hb => by
      rw [encodeBytes_cons] at hb
      rcases List.mem_cons.mp hb with rfl | hb2
      · exact lowByte_range s
      · rcases List.mem_cons.mp hb2 with rfl | hb3
        · exact highByte_range s
        · exact encodeBytes_mem_range rest b hb3

theorem count_x_removeWS (l : List Char) :
    List.count 'x' (removeWS l) = List.count 'x' l := by
  induction l with
  | nil => rfl
  | cons c l ih =>
      show List.count 'x' (List.filter _ (c :: l)) = _
      rw [List.filter_cons]
      by_cases hc : (!(c == ' ' || c == '\n')) = true
      · rw [if_pos hc, List.count_cons, List.count_cons]
        rw [show List.count 'x' (List.filter (fun c => !(c == ' ' || c == '\n')) l)
              = List.count 'x' l from ih]
      · rw [if_neg hc]
        have hne : (c == 'x') = false := by
          simp at hc
          by_cases hsp : c = ' '
          · subst hsp; decide
          · have h2 := hc hsp; subst h2; decide
        rw [List.count_cons, hne,
          show List.count 'x' (List.filter (fun c => !(c == ' ' || c == '\n')) l)
              = List.count 'x' l from ih]
        simp

theorem count_x_byteLit (b : Int) (h0 : 0 ≤ b) (h1 : b < 256) :
    List.count 'x' (byteLit b) = 1 := by
  have d1 : b.toNat / 16 < 16 := by omega
  have d2 : b.toNat % 16 < 16 := by omega
  unfold byteLit
  simp [List.count_cons, hexDigit_ne_x _ d1, hexDigit_ne_x _ d2]

theorem count_x_joinComma :
    ∀ biglist : List (List Char), (∀ l ∈ biglist, List.count 'x' l = 1) →
      List.count 'x' (joinComma biglist) = biglist.length
  | [], _ => rfl
  | [x], h => by
      show List.count 'x' x = 1
      exact h x (by simp)
  | x :: y :: rest, h => by
      have ih := count_x_joinComma (y :: rest) (fun l hl => h l (by simp [List.mem_cons] at hl ⊢; tauto))
      rw [show joinComma (x :: y :: rest) = x ++ [','] ++ joinComma (y :: rest) from rfl]
      rw [List.count_append, List.count_append, h x (by simp), ih,
        show List.count 'x' ([','] : List Char) = 0 from by decide]
      simp only [List.length_cons]
      omega

/-- C4: the line wrapping is purely cosmetic — stripping all whitespace and
newlines from the rendered array block yields exactly the ordered
comma-separated sequence of the `2 * N` byte literals of the encoded
stream, with trailing separators removed. -/
theorem line_wrapping_cosmetic (samples : List Int) :
    removeWS (array_str samples) = byteLitsJoined samples ∧
      ((encodeBytes samples).map byteLit).length = 2 * samples.length :=
  ⟨strip_render_eq samples, by rw [List.length_map, encodeBytes_length]⟩

/-- C5: a successful run's array holds exactly `2 * len(samples)` byte
literals (counted via their unique `x` marker), and the structural
`sizeof`-derived size constant equals that same `2 * len(samples)`. -/
theorem size_constant_structural (w : WavInput) (a : Artifact)
    (h : wav_to_c_array w = .ok a) :
    a.sizeofData = 2 * a.totalSamples ∧
      List.count 'x' a.arrayText = 2 * a.totalSamples := by
  unfold wav_to_c_array at h
  split at h
  · cases h
  · cases hm : reduceChannels w.nChannels w.samples with
    | none => rw [hm] at h; cases h
    | some mono =>
        rw [hm] at h
        cases h
        refine ⟨encodeBytes_length mono, ?_⟩
        show List.count 'x' (array_str mono) = 2 * mono.length
        rw [← count_x_removeWS, strip_render_eq]
        unfold byteLitsJoined
        have hall : ∀ l ∈ (encodeBytes mono).map byteLit,
            List.count 'x' l = 1 := by
          intro l hl
          rw [List.mem_map] at hl
          obtain ⟨b, hb, rfl⟩ := hl
          have hr := encodeBytes_mem_range mono b hb
          exact count_x_byteLit b hr.1 hr.2
        rw [count_x_joinComma _ hall, List.length_map, encodeBytes_length]

/-- C5 witness: the two-sample mono input `[5, -5]` yields a 4-byte array
whose size constant is 4. -/
theorem size_constant_structural_witness :
    (⟨array_str [5, -5], 4, "mono".data, 2⟩ : Artifact).sizeofData =
        2 * (⟨array_str [5, -5], 4, "mono".data, 2⟩ : Artifact).totalSamples ∧
      List.count 'x'
          (⟨array_str [5, -5], 4, "mono".data, 2⟩ : Artifact).arrayText =
        2 * (⟨array_str [5, -5], 4, "mono".data, 2⟩ : Artifact).totalSamples :=
  size_constant_structural ⟨1, 2, 8000, 2, [5, -5]⟩
    ⟨array_str [5, -5], 4, "mono".data, 2⟩ rfl

end WavToCpp
